import Mathlib

/-!
A shallow embedding of src/pagerank.py.

Python dictionaries are modelled as association lists kept in insertion
order, rational numbers stand in for Python floats (arithmetic is exact),
and code that can raise an exception (KeyError, ZeroDivisionError,
IndexError) returns Option, with none standing for the raised exception.
Randomness (random.choice, random.choices) is modelled by an explicit
oracle: a start index and a stream of indices into the candidate list.
-/

abbrev Page := String

/-- A corpus: the Python dict mapping each page to the pages it links to. -/
abbrev Corpus := List (Page × List Page)

/-- A page-to-rational dictionary (distribution, counters, ranks). -/
abbrev Ranks := List (Page × ℚ)

/-- Keys of a dictionary, in insertion order (Python dict.keys()). -/
def keysOf {α : Type} (l : List (Page × α)) : List Page := l.map Prod.fst

/-- Dictionary lookup d[k]; none models a KeyError. -/
def getVal {α : Type} : List (Page × α) → Page → Option α
  | [], _ => none
  | kv :: rest, k => if kv.1 = k then some kv.2 else getVal rest k

/-- Lookup with a default value. -/
def getValD (l : Ranks) (k : Page) (dflt : ℚ) : ℚ := (getVal l k).getD dflt

/-- Python d[k] += x: fails (KeyError) when k is not a key of d. -/
def addTo (l : Ranks) (k : Page) (x : ℚ) : Option Ranks :=
  if (getVal l k).isSome then
    some (l.map fun kv => if kv.1 = k then (kv.1, kv.2 + x) else kv)
  else none

/-- Python d[k] = v for a key k that is already present. -/
def setKey (l : Ranks) (k : Page) (v : ℚ) : Ranks :=
  l.map fun kv => if kv.1 = k then (kv.1, v) else kv

/-- Sum of the values of a dictionary. -/
def sumValues (l : Ranks) : ℚ := l.foldl (fun a kv => a + kv.2) 0

/-- transition_model (pagerank.py, lines 51-70).  none models the raised
exceptions: KeyError when page is not a key of the corpus, and
ZeroDivisionError from damping_factor / len(corpus[page]) when the page has
no outbound links (the Python computes that quotient before building the
distribution, so a dead end always raises). -/
def transition_model (corpus : Corpus) (page : Page) (damping_factor : ℚ) :
    Option Ranks :=
  match getVal corpus page with
  | none => none
  | some links =>
    if links.length = 0 then none
    else
      let randomPagePercent := (1 - damping_factor) / (corpus.length : ℚ)
      let LinkedPagePercent := damping_factor / (links.length : ℚ)
      let distribution := corpus.map fun kv => (kv.1, randomPagePercent)
      links.foldlM (fun dist nowPage => addTo dist nowPage LinkedPagePercent)
        distribution

/-- The while-loop of sample_pagerank (lines 91-96), advanced a fixed number
of remaining steps; i is the Python loop counter and σ the randomness
oracle for random.choices (an index into the model's key list). -/
def sampleSteps (corpus : Corpus) (damping_factor : ℚ) (σ : ℕ → ℕ) :
    ℕ → ℕ → Page → Ranks → Option (Page × Ranks)
  | 0, _, chosen, countDict => some (chosen, countDict)
  | steps + 1, i, chosen, countDict =>
    match transition_model corpus chosen damping_factor with
    | none => none
    | some model =>
      let modelKeys := keysOf model
      let next := modelKeys.getD (σ i % modelKeys.length) ""
      match addTo countDict next 1 with
      | none => none
      | some countDict' =>
        sampleSteps corpus damping_factor σ steps (i + 1) next countDict'

/-- sample_pagerank (lines 75-101).  start is the randomness oracle for
random.choice over the corpus keys; none models the IndexError raised by
random.choice on an empty corpus and the ZeroDivisionError of count / n
when n = 0, and propagates failures of the walk. -/
def sample_pagerank (corpus : Corpus) (damping_factor : ℚ) (n : ℕ)
    (start : ℕ) (σ : ℕ → ℕ) : Option Ranks :=
  let keys := keysOf corpus
  if keys.length = 0 then none
  else
    let countDict : Ranks := keys.map fun key => (key, 0)
    let chosen := keys.getD (start % keys.length) ""
    match addTo countDict chosen 1 with
    | none => none
    | some countDict1 =>
      match sampleSteps corpus damping_factor σ (n - 1) 2 chosen countDict1 with
      | none => none
      | some result =>
        if n = 0 then none
        else some (result.2.map fun kv => (kv.1, kv.2 / (n : ℚ)))

/-- The body of line 121-124 of iterate_pagerank: new_rank for one page,
read off the current (possibly partially updated) dictionary probDict. -/
def newRank (corpus : Corpus) (damping_factor : ℚ) (probDict : Ranks)
    (page : Page) : ℚ :=
  corpus.foldl
    (fun acc kv =>
      if page ∈ kv.2 then
        acc + damping_factor * getValD probDict kv.1 0 / (kv.2.length : ℚ)
      else acc)
    ((1 - damping_factor) / (corpus.length : ℚ))

/-- The inner for-loop of iterate_pagerank (lines 120-127): pages are
processed in key order, each assignment probDict[page] = new_rank lands
before the next page is computed, and flag records whether any change
exceeded minChange. -/
def passAux (corpus : Corpus) (damping_factor minChange : ℚ) :
    List Page → Ranks → Bool → Ranks × Bool
  | [], probDict, flag => (probDict, flag)
  | page :: rest, probDict, flag =>
    let nr := newRank corpus damping_factor probDict page
    let flag' :=
      if minChange < |nr - getValD probDict page 0| then true else flag
    passAux corpus damping_factor minChange rest (setKey probDict page nr) flag'

/-- One full pass of the convergence loop, starting with flag = False. -/
def ipass (corpus : Corpus) (damping_factor minChange : ℚ)
    (probDict : Ranks) : Ranks × Bool :=
  passAux corpus damping_factor minChange (keysOf corpus) probDict false

/-- The while-True loop of iterate_pagerank (lines 118-130), fuelled; the
threshold is the constant minChange = 0.001 fixed on line 117.  none means
the loop was still running when the fuel ran out. -/
def iterateLoop (corpus : Corpus) (damping_factor : ℚ) :
    ℕ → Ranks → Option Ranks
  | 0, _ => none
  | fuel + 1, probDict =>
    let pr := ipass corpus damping_factor (1 / 1000) probDict
    if pr.2 then iterateLoop corpus damping_factor fuel pr.1 else some pr.1

/-- iterate_pagerank (lines 104-132).  none on the empty corpus models the
ZeroDivisionError of start_value = 1 / len(corpus). -/
def iterate_pagerank (corpus : Corpus) (damping_factor : ℚ) (fuel : ℕ) :
    Option Ranks :=
  if corpus.length = 0 then none
  else
    iterateLoop corpus damping_factor fuel
      (corpus.map fun kv => (kv.1, 1 / (corpus.length : ℚ)))

/-- Modelled from the spec (section 4.3 step 3): the synchronous (Jacobi)
pass, in which every page's new rank is computed from the previous pass's
rank vector and new values do not influence other pages' computation
within the same pass. -/
def jacobiPass (corpus : Corpus) (damping_factor : ℚ) (probDict : Ranks) :
    Ranks :=
  corpus.map fun kv => (kv.1, newRank corpus damping_factor probDict kv.1)

/-- The Gauss-Seidel pass: the rank formula applied page by page to the
evolving dictionary, each page overwritten before the next is computed. -/
def gsPass (corpus : Corpus) (damping_factor : ℚ) :
    List Page → Ranks → Ranks
  | [], probDict => probDict
  | page :: rest, probDict =>
    gsPass corpus damping_factor rest
      (setKey probDict page (newRank corpus damping_factor probDict page))

/-- Modelled from the spec (sections 4.3 and 6): the convergence loop with
the threshold ε taken as an explicit parameter instead of the fixed
constant of line 117. -/
def iterateLoopEps (corpus : Corpus) (damping_factor ε : ℚ) :
    ℕ → Ranks → Option Ranks
  | 0, _ => none
  | fuel + 1, probDict =>
    let pr := ipass corpus damping_factor ε probDict
    if pr.2 then iterateLoopEps corpus damping_factor ε fuel pr.1
    else some pr.1

/-- Modelled from the spec (sections 4.3 and 6): iterate_pagerank with the
convergence threshold ε supplied by the caller. -/
def iterate_pagerank_spec (corpus : Corpus) (damping_factor ε : ℚ)
    (fuel : ℕ) : Option Ranks :=
  if corpus.length = 0 then none
  else
    iterateLoopEps corpus damping_factor ε fuel
      (corpus.map fun kv => (kv.1, 1 / (corpus.length : ℚ)))

/-- The Link Graph invariants of section 3 of the spec: distinct keys,
duplicate-free link sets, no self-loops, no out-of-corpus targets. -/
def validGraph (c : Corpus) : Prop :=
  (keysOf c).Nodup ∧
    ∀ kv ∈ c, kv.2.Nodup ∧ ∀ lnk ∈ kv.2, lnk ∈ keysOf c ∧ lnk ≠ kv.1

/-- Every value of the dictionary is non-negative. -/
def nonnegVals (l : Ranks) : Prop := ∀ kv ∈ l, 0 ≤ kv.2

/-- The shape invariant of the three estimators' outputs: whenever a
mapping is returned, its key list is exactly the corpus's key list and all
its values are non-negative. -/
def wellFormedOutputs (c : Corpus) (d : ℚ) : Prop :=
  (∀ p links, getVal c p = some links → links ≠ [] →
    ∃ t, transition_model c p d = some t ∧ keysOf t = keysOf c ∧
      nonnegVals t) ∧
  (∀ n start σ m, sample_pagerank c d n start σ = some m →
    keysOf m = keysOf c ∧ nonnegVals m) ∧
  (∀ fuel m, iterate_pagerank c d fuel = some m →
    keysOf m = keysOf c ∧ nonnegVals m)

/-- A one-page corpus whose single page is a dead end. -/
def corpus1 : Corpus := [("1.html", [])]

/-- Two pages: 1.html links to 2.html, 2.html is a dead end. -/
def corpus2 : Corpus := [("1.html", ["2.html"]), ("2.html", [])]

/-- Two pages: 1.html is a dead end, 2.html links to it. -/
def corpusDead : Corpus := [("1.html", []), ("2.html", ["1.html"])]

/-- Three pages with no dead end and an asymmetric link structure. -/
def corpus3 : Corpus :=
  [("a.html", ["b.html", "c.html"]), ("b.html", ["c.html"]),
   ("c.html", ["a.html"])]

/-- The two-page cycle of section 8 of the spec. -/
def corpusCycle : Corpus := [("1.html", ["2.html"]), ("2.html", ["1.html"])]

theorem q_abs_ite (x : ℚ) : |x| = if x < 0 then -x else x := by
  rcases lt_or_ge x 0 with h | h
  · rw [abs_of_neg h, if_pos h]
  · rw [abs_of_nonneg h, if_neg (not_lt.mpr h)]

theorem passAux_fst_eq_gsPass (corpus : Corpus) (damping_factor minChange : ℚ) :
    ∀ (pages : List Page) (probDict : Ranks) (flag : Bool),
      (passAux corpus damping_factor minChange pages probDict flag).1 =
        gsPass corpus damping_factor pages probDict
  | [], _, _ => rfl
  | _ :: rest, probDict, flag => by
    simp only [passAux, gsPass]
    exact passAux_fst_eq_gsPass corpus damping_factor minChange rest _ _

theorem iterateLoop_eq_eps (corpus : Corpus) (damping_factor : ℚ) :
    ∀ (fuel : ℕ) (probDict : Ranks),
      iterateLoop corpus damping_factor fuel probDict =
        iterateLoopEps corpus damping_factor (1 / 1000) fuel probDict
  | 0, _ => rfl
  | fuel + 1, probDict => by
    simp only [iterateLoop, iterateLoopEps]
    split
    · exact iterateLoop_eq_eps corpus damping_factor fuel _
    · rfl

/-- C1: on a valid corpus containing a dead-end page, transition_model does
not return the uniform 1/N distribution for that page: it fails with a
ZeroDivisionError (modelled as none), for every damping factor. -/
theorem transition_model_dead_end_raises :
    ∀ damping_factor : ℚ,
      transition_model corpusDead "1.html" damping_factor = none :=
  fun _ => rfl

/-- C2: in the first pass of iterate_pagerank on the corpus where 1.html
links to 2.html and 2.html is a dead end, starting from the uniform vector,
the dead-end page 2.html contributes nothing to the new rank of 1.html:
that rank is exactly (1-d)/N = 3/40, not the claimed
(1-d)/N + d*rank(2.html)/N = 23/80. -/
theorem iterate_dead_end_contributes_nothing :
    getVal
      (ipass corpus2 (17 / 20) (1 / 1000)
        (corpus2.map fun kv => (kv.1, 1 / (corpus2.length : ℚ)))).1
      "1.html" = some (3 / 40) ∧ (3 / 40 : ℚ) ≠ 23 / 80 := by
  constructor
  · simp [ipass, passAux, newRank, getValD, getVal, setKey, keysOf,
      corpus2, q_abs_ite]
    norm_num
  · norm_num

/-- C3: on the corpus where 1.html links to 2.html and 2.html is a dead
end, iterate_pagerank converges (fuel 2 suffices) and the returned ranks —
which are also the ranks after the first full pass — sum to 171/800, not
to 1. -/
theorem iterate_result_sum_not_one :
    iterate_pagerank corpus2 (17 / 20) 2 =
        some [("1.html", 3 / 40), ("2.html", 111 / 800)] ∧
      sumValues [("1.html", 3 / 40), ("2.html", 111 / 800)] = 171 / 800 ∧
      (171 / 800 : ℚ) ≠ 1 := by
  refine ⟨?_, ?_, by norm_num⟩
  · simp [iterate_pagerank, iterateLoop, ipass, passAux, newRank, getValD,
      getVal, setKey, keysOf, corpus2, q_abs_ite]
    norm_num
  · simp [sumValues]
    norm_num

/-- C4 counterexample: one pass of iterate_pagerank from the uniform vector
on corpus3 differs from the synchronous (Jacobi) pass computed entirely
from the previous vector: the in-place update of b.html changes the value
computed for c.html. -/
theorem ipass_ne_jacobiPass :
    (ipass corpus3 (17 / 20) (1 / 1000)
        (corpus3.map fun kv => (kv.1, 1 / (corpus3.length : ℚ)))).1 ≠
      jacobiPass corpus3 (17 / 20)
        (corpus3.map fun kv => (kv.1, 1 / (corpus3.length : ℚ))) := by
  simp [ipass, passAux, newRank, getValD, getVal, setKey, keysOf,
    jacobiPass, corpus3, q_abs_ite]
  norm_num

/-- C4 amended: each pass of iterate_pagerank applies the rank formula
sequentially to the evolving dictionary (Gauss-Seidel): every page is
overwritten before the next page's rank is computed, so newly computed
ranks do influence later pages within the same pass. -/
theorem ipass_eq_gauss_seidel (corpus : Corpus)
    (damping_factor minChange : ℚ) (probDict : Ranks) :
    (ipass corpus damping_factor minChange probDict).1 =
      gsPass corpus damping_factor (keysOf corpus) probDict :=
  passAux_fst_eq_gsPass corpus damping_factor minChange (keysOf corpus)
    probDict false

/-- C6 counterexample: on corpus3, after the first pass from the uniform
start every page's change is at most 1/2, so a solver honouring a
caller-supplied threshold ε = 1/2 stops at once, while iterate_pagerank
keeps iterating against its internal constant 0.001 — the two runs
disagree. -/
theorem iterate_threshold_not_configurable :
    iterate_pagerank corpus3 (17 / 20) 3 ≠
      iterate_pagerank_spec corpus3 (17 / 20) (1 / 2) 3 := by
  simp [iterate_pagerank, iterate_pagerank_spec, iterateLoop,
    iterateLoopEps, ipass, passAux, newRank, getValD, getVal, setKey,
    keysOf, corpus3, q_abs_ite]
  norm_num
  simp

/-- C6 amended: the convergence threshold of iterate_pagerank is the fixed
internal constant 0.001 of line 117, not a caller parameter: the function
coincides with the spec's configurable-threshold solver instantiated at
ε = 0.001, for every corpus, damping factor and fuel. -/
theorem iterate_pagerank_eq_spec_at_default (corpus : Corpus)
    (damping_factor : ℚ) (fuel : ℕ) :
    iterate_pagerank corpus damping_factor fuel =
      iterate_pagerank_spec corpus damping_factor (1 / 1000) fuel := by
  unfold iterate_pagerank iterate_pagerank_spec
  split
  · rfl
  · exact iterateLoop_eq_eps corpus damping_factor fuel _

/-- C5: transition_model violates its sums-to-one postcondition in the
dead-end case: on the one-page corpus whose page has no outbound links it
returns no distribution at all (ZeroDivisionError, modelled as none), for
every damping factor. -/
theorem transition_model_dead_end_no_distribution :
    ∀ damping_factor : ℚ,
      transition_model corpus1 "1.html" damping_factor = none :=
  fun _ => rfl

/-- C7: on the one-page dead-end corpus with sample count n = 2, the random
walk crashes at the second draw (ZeroDivisionError inside
transition_model), so no counters are returned, whatever the damping
factor and the randomness oracle. -/
theorem sample_pagerank_dead_end_raises :
    ∀ (damping_factor : ℚ) (σ : ℕ → ℕ),
      sample_pagerank corpus1 damping_factor 2 0 σ = none :=
  fun _ _ => rfl

theorem keysOf_map_of_fst {α β : Type} (g : Page × α → Page × β)
    (hg : ∀ kv, (g kv).1 = kv.1) (l : List (Page × α)) :
    keysOf (l.map g) = keysOf l := by
  unfold keysOf
  rw [List.map_map]
  exact List.map_congr_left fun kv _ => hg kv

theorem getVal_isSome_iff {α : Type} :
    ∀ (l : List (Page × α)) (k : Page),
      (getVal l k).isSome = true ↔ k ∈ keysOf l
  | [], k => by simp [getVal, keysOf]
  | kv :: rest, k => by
    simp only [getVal, keysOf, List.map_cons, List.mem_cons]
    by_cases h : kv.1 = k
    · simp [h]
    · simp only [if_neg h]
      rw [getVal_isSome_iff rest k]
      unfold keysOf
      constructor
      · exact Or.inr
      · rintro (h' | h')
        · exact absurd h'.symm h
        · exact h'

theorem getVal_mem {α : Type} :
    ∀ (l : List (Page × α)) (k : Page) (v : α),
      getVal l k = some v → (k, v) ∈ l
  | [], _, _ => fun h => nomatch h
  | kv :: rest, k, v => by
    simp only [getVal]
    by_cases h : kv.1 = k
    · rw [if_pos h]
      intro h'
      injection h' with h2
      rw [← h, ← h2]
      exact List.mem_cons_self kv rest
    · rw [if_neg h]
      intro h'
      exact List.mem_cons_of_mem kv (getVal_mem rest k v h')

theorem getD_mem {α : Type} :
    ∀ (l : List α) (i : ℕ), i < l.length → ∀ dflt : α, l.getD i dflt ∈ l
  | a :: l, 0, _, dflt => by simp
  | a :: l, i + 1, h, dflt => by
    have h' : i < l.length := by simpa using Nat.lt_of_succ_lt_succ h
    simp only [List.getD_cons_succ]
    exact List.mem_cons_of_mem a (getD_mem l i h' dflt)

theorem getVal_map_pair :
    ∀ (ks : List Page) (v : ℚ) (p : Page),
      getVal (ks.map fun k => (k, v)) p = if p ∈ ks then some v else none
  | [], v, p => by simp [getVal]
  | k :: ks, v, p => by
    simp only [List.map_cons, getVal]
    by_cases h : k = p
    · subst h
      simp
    · rw [if_neg h, getVal_map_pair ks v p]
      by_cases h' : p ∈ ks
      · rw [if_pos h', if_pos (List.mem_cons_of_mem k h')]
      · have hm : p ∉ k :: ks := by
          intro hm
          rcases List.mem_cons.mp hm with e | e
          · exact h e.symm
          · exact h' e
        rw [if_neg h', if_neg hm]

theorem getVal_addMap :
    ∀ (l : Ranks) (k : Page) (x : ℚ) (p : Page),
      getVal (l.map fun kv => if kv.1 = k then (kv.1, kv.2 + x) else kv) p =
        (getVal l p).map fun v => if p = k then v + x else v
  | [], k, x, p => by simp [getVal]
  | kv :: rest, k, x, p => by
    obtain ⟨a, b⟩ := kv
    simp only [List.map_cons]
    by_cases hk : a = k
    · by_cases hp : a = p
      · subst hk
        subst hp
        simp [getVal, getVal_addMap rest a x a]
      · subst hk
        simp [getVal, hp, getVal_addMap rest a x p]
    · by_cases hp : a = p
      · subst hp
        simp [getVal, hk, getVal_addMap rest k x a]
      · simp [getVal, hk, hp, getVal_addMap rest k x p]

theorem getVal_map_div :
    ∀ (l : Ranks) (q : ℚ) (p : Page),
      getVal (l.map fun kv => (kv.1, kv.2 / q)) p =
        (getVal l p).map fun v => v / q
  | [], q, p => by simp [getVal]
  | kv :: rest, q, p => by
    simp only [List.map_cons, getVal]
    by_cases hp : kv.1 = p
    · simp [hp]
    · rw [if_neg hp, if_neg hp]
      exact getVal_map_div rest q p

theorem addTo_some_of_mem {l : Ranks} {k : Page} (x : ℚ)
    (h : k ∈ keysOf l) :
    addTo l k x =
      some (l.map fun kv => if kv.1 = k then (kv.1, kv.2 + x) else kv) := by
  unfold addTo
  rw [if_pos ((getVal_isSome_iff l k).mpr h)]

theorem addTo_eq_some {l l' : Ranks} {k : Page} {x : ℚ}
    (h : addTo l k x = some l') :
    l' = l.map fun kv => if kv.1 = k then (kv.1, kv.2 + x) else kv := by
  unfold addTo at h
  split at h
  · injection h with h'
    exact h'.symm
  · cases h

theorem keysOf_addMap (l : Ranks) (k : Page) (x : ℚ) :
    keysOf (l.map fun kv => if kv.1 = k then (kv.1, kv.2 + x) else kv) =
      keysOf l :=
  keysOf_map_of_fst _ (fun kv => by by_cases h : kv.1 = k <;> simp [h]) l

theorem keysOf_setKey (l : Ranks) (k : Page) (v : ℚ) :
    keysOf (setKey l k v) = keysOf l :=
  keysOf_map_of_fst _ (fun kv => by by_cases h : kv.1 = k <;> simp [h]) l

theorem nonnegVals_addMap {l : Ranks} {k : Page} {x : ℚ}
    (hl : nonnegVals l) (hx : 0 ≤ x) :
    nonnegVals (l.map fun kv => if kv.1 = k then (kv.1, kv.2 + x) else kv) := by
  intro kv' h'
  rcases List.mem_map.mp h' with ⟨kv, hkv, rfl⟩
  by_cases h : kv.1 = k
  · simpa [h] using add_nonneg (hl kv hkv) hx
  · simpa [h] using hl kv hkv

theorem nonnegVals_setKey {l : Ranks} {k : Page} {v : ℚ}
    (hl : nonnegVals l) (hv : 0 ≤ v) : nonnegVals (setKey l k v) := by
  intro kv' h'
  rcases List.mem_map.mp h' with ⟨kv, hkv, rfl⟩
  by_cases h : kv.1 = k
  · simpa [h] using hv
  · simpa [h] using hl kv hkv

theorem nonnegVals_map_div {l : Ranks} (q : ℚ) (hq : 0 ≤ q)
    (hl : nonnegVals l) :
    nonnegVals (l.map fun kv => (kv.1, kv.2 / q)) := by
  intro kv' h'
  rcases List.mem_map.mp h' with ⟨kv, hkv, rfl⟩
  exact div_nonneg (hl kv hkv) hq

theorem getValD_nonneg {r : Ranks} (hr : nonnegVals r) (k : Page) :
    0 ≤ getValD r k 0 := by
  unfold getValD
  cases h : getVal r k with
  | none => simp
  | some v => exact hr (k, v) (getVal_mem r k v h)

theorem keysOf_map_pair :
    ∀ (ks : List Page) (v : ℚ), keysOf (ks.map fun k => (k, v)) = ks
  | [], _ => rfl
  | k :: ks, v => congrArg (List.cons k) (keysOf_map_pair ks v)

theorem foldlM_addTo_props (c : Corpus) (x : ℚ) (hx : 0 ≤ x) :
    ∀ (links : List Page) (dist : Ranks),
      (∀ lnk ∈ links, lnk ∈ keysOf c) →
      keysOf dist = keysOf c → nonnegVals dist →
      ∃ t, List.foldlM (fun acc lnk => addTo acc lnk x) dist links = some t ∧
        keysOf t = keysOf c ∧ nonnegVals t
  | [], dist, _, hk, hn => ⟨dist, rfl, hk, hn⟩
  | lnk :: rest, dist, hmem, hk, hn => by
    have h1 : lnk ∈ keysOf dist := by
      rw [hk]
      exact hmem lnk (List.mem_cons_self lnk rest)
    have hstep := addTo_some_of_mem x h1
    obtain ⟨t, ht, htk, htn⟩ :=
      foldlM_addTo_props c x hx rest
        (dist.map fun kv => if kv.1 = lnk then (kv.1, kv.2 + x) else kv)
        (fun l hl => hmem l (List.mem_cons_of_mem lnk hl))
        (by rw [keysOf_addMap, hk]) (nonnegVals_addMap hn hx)
    refine ⟨t, ?_, htk, htn⟩
    rw [List.foldlM_cons, hstep]
    simpa using ht

theorem transition_model_props (c : Corpus) (p : Page) (links : List Page)
    (d : ℚ) (h0 : 0 ≤ d) (h1 : d ≤ 1) (hg : getVal c p = some links)
    (hne : links ≠ []) (hsub : ∀ lnk ∈ links, lnk ∈ keysOf c) :
    ∃ t, transition_model c p d = some t ∧ keysOf t = keysOf c ∧
      nonnegVals t := by
  have hlen : links.length ≠ 0 := fun h => hne (List.length_eq_zero.mp h)
  have hbase : (0 : ℚ) ≤ (1 - d) / (c.length : ℚ) :=
    div_nonneg (by linarith) (Nat.cast_nonneg _)
  obtain ⟨t, ht, htk, htn⟩ :=
    foldlM_addTo_props c (d / (links.length : ℚ))
      (div_nonneg h0 (Nat.cast_nonneg _)) links
      (c.map fun kv => (kv.1, (1 - d) / (c.length : ℚ))) hsub
      (keysOf_map_of_fst (fun kv => (kv.1, (1 - d) / (c.length : ℚ)))
        (fun _ => rfl) c)
      (by
        intro kv' h'
        rcases List.mem_map.mp h' with ⟨kv, _, rfl⟩
        exact hbase)
  refine ⟨t, ?_, htk, htn⟩
  unfold transition_model
  rw [hg]
  simp only [if_neg hlen]
  exact ht

theorem sampleSteps_props (c : Corpus) (d : ℚ) (σ : ℕ → ℕ) :
    ∀ (steps i : ℕ) (chosen : Page) (counts : Ranks) (pr : Page × Ranks),
      keysOf counts = keysOf c → nonnegVals counts →
      sampleSteps c d σ steps i chosen counts = some pr →
      keysOf pr.2 = keysOf c ∧ nonnegVals pr.2
  | 0, i, ch, counts, pr, hk, hn, h => by
    simp only [sampleSteps] at h
    injection h with h'
    rw [← h']
    exact ⟨hk, hn⟩
  | steps + 1, i, ch, counts, pr, hk, hn, h => by
    simp only [sampleSteps] at h
    split at h
    · cases h
    · split at h
      · cases h
      · rename_i counts' hadd
        have he := addTo_eq_some hadd
        exact sampleSteps_props c d σ steps (i + 1) _ counts' pr
          (by rw [he, keysOf_addMap, hk])
          (by rw [he]; exact nonnegVals_addMap hn (by norm_num)) h

theorem sample_pagerank_props (c : Corpus) (d : ℚ) (n start : ℕ)
    (σ : ℕ → ℕ) (m : Ranks) (h : sample_pagerank c d n start σ = some m) :
    keysOf m = keysOf c ∧ nonnegVals m := by
  unfold sample_pagerank at h
  dsimp only [] at h
  split at h
  · cases h
  · split at h
    · cases h
    · rename_i countDict1 hadd
      have he := addTo_eq_some hadd
      have hk1 : keysOf countDict1 = keysOf c := by
        rw [he, keysOf_addMap, keysOf_map_pair]
      have hn1 : nonnegVals countDict1 := by
        rw [he]
        refine nonnegVals_addMap ?_ (by norm_num)
        intro kv' h'
        rcases List.mem_map.mp h' with ⟨k, _, rfl⟩
        exact le_refl 0
      split at h
      · cases h
      · rename_i result hss
        obtain ⟨hrk, hrn⟩ :=
          sampleSteps_props c d σ (n - 1) 2 _ countDict1 result hk1 hn1 hss
        split at h
        · cases h
        · injection h with h'
          rw [← h']
          constructor
          · rw [keysOf_map_of_fst (fun kv => (kv.1, kv.2 / (n : ℚ)))
              (fun _ => rfl), hrk]
          · exact nonnegVals_map_div _ (Nat.cast_nonneg n) hrn

theorem foldl_rank_nonneg (c : Corpus) (d : ℚ) (r : Ranks) (p : Page)
    (h0 : 0 ≤ d) (hr : nonnegVals r) :
    ∀ (items : List (Page × List Page)) (acc : ℚ), 0 ≤ acc →
      0 ≤ items.foldl
        (fun acc kv =>
          if p ∈ kv.2 then
            acc + d * getValD r kv.1 0 / (kv.2.length : ℚ)
          else acc)
        acc
  | [], acc, ha => ha
  | kv :: rest, acc, ha => by
    simp only [List.foldl_cons]
    refine foldl_rank_nonneg c d r p h0 hr rest _ ?_
    by_cases h : p ∈ kv.2
    · rw [if_pos h]
      refine add_nonneg ha (div_nonneg ?_ (Nat.cast_nonneg _))
      exact mul_nonneg h0 (getValD_nonneg hr kv.1)
    · rwa [if_neg h]

theorem newRank_nonneg (c : Corpus) (d : ℚ) (r : Ranks) (p : Page)
    (h0 : 0 ≤ d) (h1 : d ≤ 1) (hr : nonnegVals r) :
    0 ≤ newRank c d r p := by
  unfold newRank
  exact foldl_rank_nonneg c d r p h0 hr c _
    (div_nonneg (by linarith) (Nat.cast_nonneg _))

theorem passAux_props (c : Corpus) (d ε : ℚ) (h0 : 0 ≤ d) (h1 : d ≤ 1) :
    ∀ (ps : List Page) (r : Ranks) (flag : Bool),
      keysOf r = keysOf c → nonnegVals r →
      keysOf (passAux c d ε ps r flag).1 = keysOf c ∧
        nonnegVals (passAux c d ε ps r flag).1
  | [], _, _, hk, hn => ⟨hk, hn⟩
  | p :: rest, r, flag, hk, hn => by
    simp only [passAux]
    exact passAux_props c d ε h0 h1 rest _ _
      (by rw [keysOf_setKey]; exact hk)
      (nonnegVals_setKey hn (newRank_nonneg c d r p h0 h1 hn))

theorem iterateLoop_props (c : Corpus) (d : ℚ) (h0 : 0 ≤ d) (h1 : d ≤ 1) :
    ∀ (fuel : ℕ) (r m : Ranks),
      keysOf r = keysOf c → nonnegVals r →
      iterateLoop c d fuel r = some m →
      keysOf m = keysOf c ∧ nonnegVals m
  | 0, _, _, _, _, h => by cases h
  | fuel + 1, r, m, hk, hn, h => by
    simp only [iterateLoop, ipass] at h
    obtain ⟨hk', hn'⟩ :=
      passAux_props c d (1 / 1000) h0 h1 (keysOf c) r false hk hn
    split at h
    · exact iterateLoop_props c d h0 h1 fuel _ m hk' hn' h
    · injection h with h'
      rw [← h']
      exact ⟨hk', hn'⟩

theorem iterate_pagerank_props (c : Corpus) (d : ℚ) (fuel : ℕ) (m : Ranks)
    (h0 : 0 ≤ d) (h1 : d ≤ 1) (h : iterate_pagerank c d fuel = some m) :
    keysOf m = keysOf c ∧ nonnegVals m := by
  unfold iterate_pagerank at h
  split at h
  · cases h
  · refine iterateLoop_props c d h0 h1 fuel _ m ?_ ?_ h
    · exact keysOf_map_of_fst (fun kv => (kv.1, 1 / (c.length : ℚ)))
        (fun _ => rfl) c
    · intro kv' h'
      rcases List.mem_map.mp h' with ⟨kv, _, rfl⟩
      exact div_nonneg (by norm_num) (Nat.cast_nonneg _)

/-- C8: on any non-empty corpus, sample_pagerank with sample count n = 1
returns a mapping in which the uniformly chosen start page has estimate 1
and every other page has estimate 0. -/
theorem sample_pagerank_single_start (c : Corpus) (d : ℚ) (start : ℕ)
    (σ : ℕ → ℕ) (hne : c ≠ []) :
    ∃ m, sample_pagerank c d 1 start σ = some m ∧
      getVal m ((keysOf c).getD (start % (keysOf c).length) "") = some 1 ∧
      ∀ p ∈ keysOf c, p ≠ (keysOf c).getD (start % (keysOf c).length) "" →
        getVal m p = some 0 := by
  have hlen : (keysOf c).length ≠ 0 := by
    unfold keysOf
    rw [List.length_map]
    intro h
    exact hne (List.length_eq_zero.mp h)
  have hpos : 0 < (keysOf c).length := Nat.pos_of_ne_zero hlen
  have hmem : (keysOf c).getD (start % (keysOf c).length) "" ∈ keysOf c :=
    getD_mem (keysOf c) _ (Nat.mod_lt _ hpos) ""
  have hmem0 :
      (keysOf c).getD (start % (keysOf c).length) "" ∈
        keysOf ((keysOf c).map fun key => (key, (0 : ℚ))) := by
    rw [keysOf_map_pair]
    exact hmem
  unfold sample_pagerank
  dsimp only []
  rw [if_neg hlen, addTo_some_of_mem 1 hmem0]
  dsimp only []
  rw [Nat.sub_self]
  simp only [sampleSteps]
  rw [if_neg one_ne_zero]
  refine ⟨_, rfl, ?_, ?_⟩
  · rw [getVal_map_div, getVal_addMap, getVal_map_pair, if_pos hmem]
    simp
  · intro p hp hne'
    rw [getVal_map_div, getVal_addMap, getVal_map_pair, if_pos hp]
    dsimp only [Option.map]
    rw [if_neg hne']
    norm_num

/-- C8 witness: on the two-page cycle with start index 0, the walk of
length 1 assigns estimate 1 to 1.html and 0 to 2.html. -/
theorem sample_pagerank_single_start_witness :
    corpusCycle ≠ [] ∧
      ∃ m, sample_pagerank corpusCycle (17 / 20) 1 0 (fun _ => 0) = some m ∧
        getVal m
            ((keysOf corpusCycle).getD (0 % (keysOf corpusCycle).length) "") =
          some 1 ∧
        ∀ p ∈ keysOf corpusCycle,
          p ≠ (keysOf corpusCycle).getD (0 % (keysOf corpusCycle).length) "" →
          getVal m p = some 0 :=
  ⟨by decide,
    sample_pagerank_single_start corpusCycle (17 / 20) 0 (fun _ => 0)
      (by decide)⟩

/-- C10: on a valid corpus with damping factor in (0,1), every mapping the
three estimators return has key list exactly the corpus's key list and
only non-negative values: transition_model succeeds with such a mapping on
every page that has at least one outbound link, and sample_pagerank and
iterate_pagerank satisfy it whenever they return a mapping. -/
theorem estimators_well_formed (c : Corpus) (d : ℚ) (h0 : 0 < d)
    (h1 : d < 1) (hv : validGraph c) : wellFormedOutputs c d := by
  refine ⟨?_, ?_, ?_⟩
  · intro p links hg hne
    refine transition_model_props c p links d h0.le h1.le hg hne ?_
    intro lnk hlnk
    exact ((hv.2 (p, links) (getVal_mem c p links hg)).2 lnk hlnk).1
  · intro n start σ m h
    exact sample_pagerank_props c d n start σ m h
  · intro fuel m h
    exact iterate_pagerank_props c d fuel m h0.le h1.le h

/-- C10 witness: the invariants instantiated on the two-page cycle with
damping factor 17/20. -/
theorem estimators_well_formed_witness :
    0 < (17 / 20 : ℚ) ∧ (17 / 20 : ℚ) < 1 ∧ validGraph corpusCycle ∧
      wellFormedOutputs corpusCycle (17 / 20) :=
  ⟨by norm_num, by norm_num, by unfold validGraph; decide,
    estimators_well_formed corpusCycle (17 / 20) (by norm_num) (by norm_num)
      (by unfold validGraph; decide)⟩
